import Mathlib

/-!
Verification of the resume-PDF extraction-and-merge engine
(`scraper/openai_extractor.py`, `scraper/pdf_utils.py`).

The Python code is shallowly embedded: dictionaries with the fixed key set
`name, email, github, education, experiences` become the structure
`ResumeRec`; `None` becomes `Option.none`; a raised exception becomes
`Option.none` / `Except.error` at the call boundary where the caller
catches it.  The two regular expressions used by `_normalize_email` /
`_normalize_github` and the brace-salvage regex of `_extract_from_page`
are embedded as specialised backtracking matchers that reproduce
Python `re.search` semantics (leftmost start position, greedy
quantifiers with backtracking) for those three concrete patterns.
-/

namespace Scraper

/-- The whitespace characters removed by Python `str.strip()` (ASCII range;
the resume strings handled here are ASCII). -/
def isPySpace (c : Char) : Bool :=
  c = ' ' || c = '\t' || c = '\n' || c = '\x0d' || c = '\x0b' || c = '\x0c'

/-- Python `str.strip()` on a character list: drop whitespace from the front,
then from the back (implemented by reversing). -/
def pyStripL (l : List Char) : List Char :=
  (((l.dropWhile isPySpace).reverse).dropWhile isPySpace).reverse

/-- Python `str.strip()`. -/
def pyStrip (s : String) : String :=
  String.mk (pyStripL s.data)

/-- Python truthiness of an optional string (`None` and `""` are falsy). -/
def pyTruthy (o : Option String) : Bool :=
  match o with
  | none => false
  | some s => !(s = "")

/-! ### `re.search` for the three patterns used by the code

A matcher-at-a-position has type `List Char → Option (List Char × List Char)`:
given the suffix of the text starting at the current position it returns
`some (matched, rest)` — the matched characters (`m.group(0)` relative to this
position) and the remaining characters — or `none` when no match starts here.
`reSearch` tries positions left to right, exactly like Python `re.search`. -/

/-- Python `re.search`: scan start positions left to right; at the first
position where the matcher succeeds, return `(textBefore, matched, rest)`. -/
def reSearch (f : List Char → Option (List Char × List Char)) :
    List Char → Option (List Char × List Char × List Char)
  | [] =>
    match f [] with
    | some (m, r) => some ([], m, r)
    | none => none
  | c :: cs =>
    match f (c :: cs) with
    | some (m, r) => some ([], m, r)
    | none => (reSearch f cs).map fun x => (c :: x.1, x.2.1, x.2.2)

/-- Characters of the class `[A-Za-z0-9._%+-]` (local part of the email
pattern). -/
def isLChar (c : Char) : Bool :=
  c.isAlpha || c.isDigit || c = '.' || c = '_' || c = '%' || c = '+' || c = '-'

/-- Characters of the class `[A-Za-z0-9.-]` (domain part of the email
pattern). -/
def isMChar (c : Char) : Bool :=
  c.isAlpha || c.isDigit || c = '.' || c = '-'

/-- Characters of the class `[A-Za-z]` (top-level-domain part). -/
def isTChar (c : Char) : Bool :=
  c.isAlpha

/-- Characters of the class `[A-Za-z0-9_.-]` (github path segment). -/
def isGChar (c : Char) : Bool :=
  c.isAlpha || c.isDigit || c = '_' || c = '.' || c = '-'

/-- Backtracking step for the tail `[A-Za-z0-9.-]+\.[A-Za-z]{2,}` of the
email pattern after `@`.  `r` is the text after the `@`; the greedy `+` first
consumed the maximal `isMChar` run, and backtracking tries split lengths
`q = P, P-1, …, 1`: at each `q` the next character must be `'.'` and the
greedy `[A-Za-z]{2,}` needs at least two letters after it. -/
def tryDot (r : List Char) : Nat → Option (List Char × List Char)
  | 0 => none
  | p + 1 =>
    let q := p + 1
    let tl := (r.drop (q + 1)).takeWhile isTChar
    if r[q]? = some '.' ∧ 2 ≤ tl.length then
      some (r.take q ++ '.' :: tl, (r.drop (q + 1)).dropWhile isTChar)
    else
      tryDot r p

/-- Match of `[A-Za-z0-9._%+-]+@[A-Za-z0-9.-]+\.[A-Za-z]{2,}` anchored at the
current position, with Python's greedy/backtracking semantics.  The first
`+` consumes the maximal `isLChar` run (no shorter run can be followed by the
`'@'`, since `'@'` is not in the class); the rest is handled by `tryDot`. -/
def emailMatchAt (cs : List Char) : Option (List Char × List Char) :=
  match cs.dropWhile isLChar with
  | [] => none
  | d :: r =>
    if cs.takeWhile isLChar = [] ∨ d ≠ '@' then none
    else
      match tryDot r (r.takeWhile isMChar).length with
      | some (m, rest) => some (cs.takeWhile isLChar ++ '@' :: m, rest)
      | none => none

/-- `_normalize_email`: `None`/empty input gives `None`; otherwise
`re.search` with the email pattern, returning the matched substring. -/
def pyNormalizeEmail (o : Option String) : Option String :=
  match o with
  | none => none
  | some t =>
    if t = "" then none
    else
      match reSearch emailMatchAt t.data with
      | some (_, m, _) => some (String.mk m)
      | none => none

/-- Case-insensitive literal match (the `re.IGNORECASE` flag of the github
pattern): strip `lit` from the front of `cs`, comparing lowercased
characters; return the consumed original characters and the rest. -/
def ciStrip : List Char → List Char → Option (List Char × List Char)
  | [], cs => some ([], cs)
  | _ :: _, [] => none
  | l :: ls, c :: cs =>
    if c.toLower = l.toLower then
      (ciStrip ls cs).map fun x => (c :: x.1, x.2)
    else
      none

/-- The deterministic part `github\.com/[A-Za-z0-9_.-]+` at the end of the
github pattern. -/
def ghCore (consumed rr : List Char) : Option (List Char × List Char) :=
  match ciStrip "github.com/".data rr with
  | none => none
  | some (m3, r3) =>
    let g := r3.takeWhile isGChar
    if g.length = 0 then none
    else some (consumed ++ m3 ++ g, r3.dropWhile isGChar)

/-- The part after the scheme separator: `(?:www\.)?github\.com/[A-Za-z0-9_.-]+`
with the greedy optional group tried first, falling back to skipping it. -/
def ghTail (consumed r2 : List Char) : Option (List Char × List Char) :=
  match ciStrip "www.".data r2 with
  | some (mw, r4) =>
    match ghCore (consumed ++ mw) r4 with
    | some x => some x
    | none => ghCore consumed r2
  | none => ghCore consumed r2

/-- After the literal `http`: greedy optional `s?`, then `://`, then
`ghTail`. -/
def ghAfterHttp (consumed r : List Char) : Option (List Char × List Char) :=
  match ciStrip "://".data r with
  | none => none
  | some (m2, r2) => ghTail (consumed ++ m2) r2

/-- Match of `https?://(?:www\.)?github\.com/[A-Za-z0-9_.-]+` (IGNORECASE)
anchored at the current position, with greedy `s?` tried first. -/
def githubMatchAt (cs : List Char) : Option (List Char × List Char) :=
  match ciStrip "http".data cs with
  | none => none
  | some (m1, r1) =>
    match r1 with
    | c :: rest1 =>
      if c.toLower = 's' then
        match ghAfterHttp (m1 ++ [c]) rest1 with
        | some x => some x
        | none => ghAfterHttp m1 r1
      else ghAfterHttp m1 r1
    | [] => ghAfterHttp m1 r1

/-- `_normalize_github`: `None`/empty input gives `None`; otherwise
`re.search` with the github pattern (IGNORECASE), returning the matched
substring in its original case. -/
def pyNormalizeGithub (o : Option String) : Option String :=
  match o with
  | none => none
  | some t =>
    if t = "" then none
    else
      match reSearch githubMatchAt t.data with
      | some (_, m, _) => some (String.mk m)
      | none => none

/-- Split a list at its LAST `'}'`: returns `(upToBrace, after)` where
`upToBrace` ends with that `'}'` and `after` contains no `'}'`.  Used to
model the greedy `[\s\S]*` of the brace-salvage pattern. -/
def lastBrace : List Char → Option (List Char × List Char)
  | [] => none
  | c :: cs =>
    match lastBrace cs with
    | some (p, s) => some (c :: p, s)
    | none => if c = '}' then some ([c], cs) else none

/-- Match of the salvage pattern `\{[\s\S]*\}` anchored at the current
position: a literal `'{'`, then the greedy `[\s\S]*` extends to the last
`'}'` of the remaining text. -/
def braceMatchAt (cs : List Char) : Option (List Char × List Char) :=
  match cs with
  | '{' :: rest =>
    match lastBrace rest with
    | some (p, s) => some ('{' :: p, s)
    | none => none
  | _ => none

/-- `re.search(r"\x7b[\s\S]*\x7d", content)` of `_extract_from_page`,
returning `m.group(0)`. -/
def braceSearchStr (content : String) : Option String :=
  match reSearch braceMatchAt content.data with
  | some (_, m, _) => some (String.mk m)
  | none => none

/-- Lowercasing of a character list (for stating case-insensitive
matching). -/
def lowerList (l : List Char) : List Char :=
  l.map Char.toLower

/-- A character list that the email pattern
`[A-Za-z0-9._%+-]+@[A-Za-z0-9.-]+\.[A-Za-z]{2,}` matches in full:
`local @ domain . tld` with nonempty class-conforming parts and a
tld of at least two letters. -/
def EmailShaped (s : List Char) : Prop :=
  ∃ a b c, s = a ++ '@' :: (b ++ '.' :: c) ∧
    a ≠ [] ∧ (∀ x ∈ a, isLChar x) ∧
    b ≠ [] ∧ (∀ x ∈ b, isMChar x) ∧
    2 ≤ c.length ∧ (∀ x ∈ c, isTChar x)

/-- A character list that the github pattern
`https?://(?:www\.)?github\.com/[A-Za-z0-9_.-]+` (IGNORECASE) matches in
full: one of the four scheme/host spellings, case-insensitively, followed by
a nonempty class-conforming path segment. -/
def GithubShaped (s : List Char) : Prop :=
  ∃ pre g, s = pre ++ g ∧ g ≠ [] ∧ (∀ x ∈ g, isGChar x) ∧
    (lowerList pre = "http://github.com/".data ∨
     lowerList pre = "https://github.com/".data ∨
     lowerList pre = "http://www.github.com/".data ∨
     lowerList pre = "https://www.github.com/".data)

/-! ### The record model

A result dictionary of `openai_extractor.py` always carries exactly the keys
`EXPECTED_KEYS = ["name", "email", "github", "education", "experiences"]`,
the first four mapped to a string or `None` and the last to a list of
strings; it is embedded as the structure `ResumeRec`. -/

/-- A partial or aggregate resume record (`_empty_result()`-shaped dict). -/
structure ResumeRec where
  name : Option String
  email : Option String
  github : Option String
  education : Option String
  experiences : List String
deriving DecidableEq, Repr

/-- `_empty_result()`. -/
def emptyResult : ResumeRec :=
  { name := none, email := none, github := none, education := none,
    experiences := [] }

/-- One iteration of the experiences loop of `_merge_results`:
`item_s = str(item).strip(); if item_s and item_s not in acc: acc.append(item_s)`. -/
def addExperience (acc : List String) (item : String) : List String :=
  let s := pyStrip item
  if s ≠ "" ∧ s ∉ acc then acc ++ [s] else acc

/-- The experiences loop of `_merge_results`: fold `addExperience` over the
partial's entries, starting from the aggregate's list. -/
def mergeExperiences (base upd : List String) : List String :=
  upd.foldl addExperience base

/-- The entries that the experiences loop of `_merge_results` appends to the
aggregate's list: the partial's entries, trimmed, in the partial's own
order, keeping only those that are nonempty and not yet present (in the
aggregate's list extended by the entries appended so far). -/
def newExperiences (base : List String) : List String → List String
  | [] => []
  | i :: is =>
    let s := pyStrip i
    if s ≠ "" ∧ s ∉ base then s :: newExperiences (base ++ [s]) is
    else newExperiences base is

/-- `_merge_results(base, update)`: the returned dictionary.  Conditions are
written exactly as the Python truthiness tests and length comparisons. -/
def mergeResults (base upd : ResumeRec) : ResumeRec :=
  let name :=
    if pyTruthy upd.name ∧
        (¬ pyTruthy base.name ∨
          (base.name.getD "").length < (upd.name.getD "").length) then
      some (pyStrip (upd.name.getD ""))
    else base.name
  let email :=
    match pyNormalizeEmail upd.email with
    | some e => some e
    | none => base.email
  let github :=
    match pyNormalizeGithub upd.github with
    | some g => some g
    | none => base.github
  let education :=
    if pyTruthy upd.education then
      if pyTruthy base.education then
        if (base.education.getD "").length < (upd.education.getD "").length then
          some (pyStrip (upd.education.getD ""))
        else base.education
      else some (pyStrip (upd.education.getD ""))
    else base.education
  { name := name, email := email, github := github, education := education,
    experiences := mergeExperiences base.experiences upd.experiences }

/-- The value of the FIRST argument of `_merge_results(base, update)` after
the call returns.  `result = dict(base)` is a SHALLOW copy, so
`result["experiences"]` and `base["experiences"]` are the same list object
and every `result["experiences"].append(item_s)` also mutates `base`'s list;
the scalar entries of `base` are untouched (assignments go to the new dict).
Hence after the call `base` holds its old scalar fields and the merged
experiences list. -/
def mergeBaseAfter (base upd : ResumeRec) : ResumeRec :=
  { base with experiences := mergeExperiences base.experiences upd.experiences }

/-! ### The per-document fold (`extract_resume_from_pages`)

The LLM call is the only non-determinism: it is abstracted as an oracle
`f : String → Option ResumeRec`, where `f p = some r` means
`_extract_from_page` returned the partial record `r` for page text `p`, and
`f p = none` means it raised (its retries exhausted), which the loop's
`except` catches and skips.  `runPages` also returns the list of page texts
on which the extractor was invoked, in invocation order. -/

/-- The page loop of `extract_resume_from_pages`: skip falsy (empty) page
texts without calling the extractor; otherwise call it and merge on success,
skip on failure.  Returns the final aggregate and the invocation trace. -/
def runPages (f : String → Option ResumeRec) :
    ResumeRec → List String → ResumeRec × List String
  | merged, [] => (merged, [])
  | merged, p :: ps =>
    if p = "" then runPages f merged ps
    else
      match f p with
      | some r =>
        let rest := runPages f (mergeResults merged r) ps
        (rest.1, p :: rest.2)
      | none =>
        let rest := runPages f merged ps
        (rest.1, p :: rest.2)

/-- `extract_resume_from_pages`: fold the pages from the empty record. -/
def extractResumeFromPages (f : String → Option ResumeRec)
    (pages : List String) : ResumeRec × List String :=
  runPages f emptyResult pages

/-! ### The parse-and-salvage step of `_extract_from_page`

`json.loads` is a library call, abstracted as `loads : String → Option D`
(`none` models a raised `json.JSONDecodeError`); `emptyD : D` stands for the
empty dictionary literal `{}`.  The result `none` of `parseWithSalvage`
models an exception propagating out of the attempt (to the retry decorator):
the second `json.loads` call sits OUTSIDE the `try` block. -/

/-- The parsing step of `_extract_from_page`:
`try: data = json.loads(content) except: m = re.search(...); data =
json.loads(m.group(0)) if m else \x7b\x7d`. -/
def parseWithSalvage {D : Type} (loads : String → Option D) (emptyD : D)
    (content : String) : Option D :=
  match loads content with
  | some d => some d
  | none =>
    match braceSearchStr content with
    | some sub => loads sub
    | none => some emptyD

/-! ### The retry decorator of `_extract_from_page`

`@retry(stop=stop_after_attempt(3), wait=wait_exponential(multiplier=1,
min=1, max=10), reraise=True)` — modelled from the tenacity library's
semantics: attempts are numbered from 1; after a failed attempt `n` (and
before the next one) the waiting time is
`max(max(0, min), min(multiplier * 2^(n-1), max))`; `stop_after_attempt(3)`
allows at most 3 attempts; `reraise=True` re-raises the final attempt's
exception.  The outcomes of the successive attempts are abstracted as
`f : Nat → Except E A` (`f n` is attempt number `n`). -/

/-- `wait_exponential(multiplier=1, min=1, max=10)` evaluated after the
failure of attempt number `n`. -/
def waitExponential (n : Nat) : Nat :=
  max (max 0 1) (min (1 * 2 ^ (n - 1)) 10)

/-- The retry-wrapped call: result, number of attempts made, and the list of
waiting times slept between attempts. -/
def retryRun {E A : Type} (f : Nat → Except E A) :
    Except E A × Nat × List Nat :=
  match f 1 with
  | .ok a => (.ok a, 1, [])
  | .error _ =>
    match f 2 with
    | .ok a => (.ok a, 2, [waitExponential 1])
    | .error _ => (f 3, 3, [waitExponential 1, waitExponential 2])

/-! ### The isolation runner (`pdf_utils.py`)

`extract_pdf_pages_text_with_timeout` spawns `_extract_worker` in a separate
process with a queue.  The worker runs `extract_pdf_pages_text` and performs
exactly ONE `q.put`: the complete page list on success, `None` on exception;
a worker that is killed mid-extraction has put nothing.  The caller joins
with the timeout; if the worker is still alive it is terminated and the call
returns `None`; otherwise `q.get_nowait()` returns what was put (or raises
`Empty`, caught, returning `None`).  Scheduling is abstracted into
`WorkerFate`: `pages` is the full ordered page-text list the document would
yield, and `timedOutAfter k` records that the worker was terminated after
producing `k` pages internally — those pages never reached the queue. -/

/-- What happened to the isolation worker before the caller inspected it. -/
inductive WorkerFate where
  /-- deadline elapsed with the worker alive; it had internally accumulated
  `k` pages, which are discarded with the process -/
  | timedOutAfter (k : Nat)
  /-- the extraction library raised; the worker put `None` -/
  | crashed
  /-- extraction finished in time; the worker put the full page list -/
  | completed
deriving DecidableEq

/-- `extract_pdf_pages_text_with_timeout`, as a function of the document's
full page list and the worker's fate. -/
def extractPdfPagesTextWithTimeout (pages : List String) :
    WorkerFate → Option (List String)
  | .timedOutAfter _ => none
  | .crashed => none
  | .completed => some pages

/-! ## Helper lemmas -/

theorem resume_ext {a b : ResumeRec} (h1 : a.name = b.name)
    (h2 : a.email = b.email) (h3 : a.github = b.github)
    (h4 : a.education = b.education) (h5 : a.experiences = b.experiences) :
    a = b := by
  cases a
  cases b
  simp only [ResumeRec.mk.injEq]
  exact ⟨h1, h2, h3, h4, h5⟩

theorem mergeResults_name (b u : ResumeRec) :
    (mergeResults b u).name =
      if pyTruthy u.name ∧ (¬ pyTruthy b.name ∨
          (b.name.getD "").length < (u.name.getD "").length) then
        some (pyStrip (u.name.getD ""))
      else b.name := rfl

theorem mergeResults_education (b u : ResumeRec) :
    (mergeResults b u).education =
      if pyTruthy u.education then
        if pyTruthy b.education then
          if (b.education.getD "").length < (u.education.getD "").length then
            some (pyStrip (u.education.getD ""))
          else b.education
        else some (pyStrip (u.education.getD ""))
      else b.education := rfl

theorem mergeResults_email (b u : ResumeRec) :
    (mergeResults b u).email =
      match pyNormalizeEmail u.email with
      | some e => some e
      | none => b.email := rfl

theorem mergeResults_github (b u : ResumeRec) :
    (mergeResults b u).github =
      match pyNormalizeGithub u.github with
      | some g => some g
      | none => b.github := rfl

theorem mergeResults_experiences (b u : ResumeRec) :
    (mergeResults b u).experiences =
      mergeExperiences b.experiences u.experiences := rfl

theorem foldl_addExperience_of_contained :
    ∀ (E B : List String), (∀ e ∈ E, pyStrip e = "" ∨ pyStrip e ∈ B) →
      E.foldl addExperience B = B := by
  intro E
  induction E with
  | nil => intro B _; rfl
  | cons e E ih =>
    intro B h
    have he := h e (by simp)
    have hc : ¬(pyStrip e ≠ "" ∧ pyStrip e ∉ B) := by tauto
    have hstep : addExperience B e = B := by simp only [addExperience, if_neg hc]
    rw [List.foldl_cons, hstep]
    exact ih B fun x hx => h x (by simp [hx])

/-! ## C1 -/

/-- C1: the merge replaces the aggregate's email exactly when the partial's
email field yields a valid (pattern-matching) value, last valid value wins
unconditionally, the same holds for github, and an invalid later candidate
never displaces an earlier valid value; concretely, pages yielding
`a@x.com` then `b@y.com` end with `b@y.com`, and `a@x.com` followed by
`not-an-email` ends with `a@x.com`. -/
theorem merge_email_github_last_valid_value_wins :
    (∀ b u : ResumeRec,
      (∀ e, pyNormalizeEmail u.email = some e → (mergeResults b u).email = some e) ∧
      (pyNormalizeEmail u.email = none → (mergeResults b u).email = b.email) ∧
      (∀ g, pyNormalizeGithub u.github = some g → (mergeResults b u).github = some g) ∧
      (pyNormalizeGithub u.github = none → (mergeResults b u).github = b.github)) ∧
    (mergeResults (mergeResults emptyResult
        { emptyResult with email := some "a@x.com" })
        { emptyResult with email := some "b@y.com" }).email = some "b@y.com" ∧
    (mergeResults (mergeResults emptyResult
        { emptyResult with email := some "a@x.com" })
        { emptyResult with email := some "not-an-email" }).email = some "a@x.com" := by
  refine ⟨fun b u => ⟨?_, ?_, ?_, ?_⟩, by decide, by decide⟩
  · intro e he; rw [mergeResults_email, he]
  · intro he; rw [mergeResults_email, he]
  · intro g hg; rw [mergeResults_github, hg]
  · intro hg; rw [mergeResults_github, hg]

/-- C1 witness: concrete application of the replace-when-valid rule. -/
theorem merge_email_github_last_valid_value_wins_witness :
    (mergeResults emptyResult { emptyResult with email := some "c@d.io" }).email =
      some "c@d.io" :=
  (merge_email_github_last_valid_value_wins.1 emptyResult
    { emptyResult with email := some "c@d.io" }).1 "c@d.io" (by decide)

/-! ## C2 -/

/-- C2 counterexample: `_merge_results` does NOT leave its first argument
unchanged — merging a partial with a new experience entry appends that entry
to the input aggregate's own list (`dict(base)` is a shallow copy). -/
theorem merge_mutates_aggregate_cex :
    mergeBaseAfter ⟨none, none, none, none, ["A"]⟩ ⟨none, none, none, none, ["B"]⟩ ≠
      ⟨none, none, none, none, ["A"]⟩ ∧
    (mergeBaseAfter ⟨none, none, none, none, ["A"]⟩
        ⟨none, none, none, none, ["B"]⟩).experiences = ["A", "B"] := by
  decide

/-- C2 amended: the merge returns a new aggregate record; the input
aggregate's scalar fields are unchanged, but its experiences list is the
very list of the returned record (the shallow `dict(base)` copy shares it),
so the input aggregate is left fully unchanged iff the partial contributes
no new experience entries. -/
theorem merge_shares_experiences_with_input_aggregate :
    ∀ b u : ResumeRec,
      (mergeBaseAfter b u).name = b.name ∧
      (mergeBaseAfter b u).email = b.email ∧
      (mergeBaseAfter b u).github = b.github ∧
      (mergeBaseAfter b u).education = b.education ∧
      (mergeBaseAfter b u).experiences = (mergeResults b u).experiences ∧
      (mergeBaseAfter b u = b ↔
        mergeExperiences b.experiences u.experiences = b.experiences) := by
  intro b u
  refine ⟨rfl, rfl, rfl, rfl, rfl, ?_, ?_⟩
  · intro h
    exact (congrArg ResumeRec.experiences h :)
  · intro h
    show { b with experiences := mergeExperiences b.experiences u.experiences } = b
    rw [h]

/-! ## C3 -/

/-- C3 counterexample: a page whose text is the empty string is skipped by
`extract_resume_from_pages` WITHOUT invoking the Field Extractor (the loop
does `if not page_text: continue` first), so the extractor is not invoked
once per page of the list. -/
theorem extractor_skips_empty_page_cex :
    (extractResumeFromPages (fun _ => some emptyResult) [""]).2 = ([] : List String) ∧
    ([] : List String) ≠ [""] := by
  exact ⟨rfl, by decide⟩

/-- C3 amended: the Field Extractor is invoked exactly once per NON-empty
page text, in page order (empty-string pages are skipped without an
invocation), and the results are folded through the merge starting from the
all-empty aggregate record, failed pages contributing nothing. -/
theorem extractor_invoked_once_per_nonempty_page :
    ∀ (f : String → Option ResumeRec) (pages : List String),
      (extractResumeFromPages f pages).2 = pages.filter (fun p => !(p == "")) ∧
      (extractResumeFromPages f pages).1 =
        (pages.filter (fun p => !(p == ""))).foldl
          (fun m p => match f p with | some r => mergeResults m r | none => m)
          emptyResult := by
  intro f pages
  have key : ∀ (ps : List String) (m : ResumeRec),
      runPages f m ps =
        ((ps.filter (fun p => !(p == ""))).foldl
          (fun m p => match f p with | some r => mergeResults m r | none => m) m,
         ps.filter (fun p => !(p == ""))) := by
    intro ps
    induction ps with
    | nil => intro m; rfl
    | cons p ps ih =>
      intro m
      by_cases hp : p = ""
      · subst hp
        simp [runPages, ih]
      · have hpb : (p == "") = false := by
          exact beq_eq_false_iff_ne.mpr hp
        cases hf : f p with
        | some r => simp [runPages, hp, hf, ih, hpb]
        | none => simp [runPages, hp, hf, ih, hpb]
  exact ⟨by rw [extractResumeFromPages, key], by rw [extractResumeFromPages, key]⟩

/-! ## C7 -/

/-- C7: the timeout-bounded extraction returns either the full ordered page
list or no result — never a proper prefix or other partial output; a timed
out worker (however many pages it had internally produced) and a crashed
worker both yield no result. -/
theorem isolation_all_or_nothing :
    ∀ (pages : List String) (fate : WorkerFate),
      (extractPdfPagesTextWithTimeout pages fate = none ∨
        extractPdfPagesTextWithTimeout pages fate = some pages) ∧
      (∀ k, extractPdfPagesTextWithTimeout pages (WorkerFate.timedOutAfter k) = none) ∧
      extractPdfPagesTextWithTimeout pages WorkerFate.crashed = none := by
  intro pages fate
  refine ⟨?_, fun _ => rfl, rfl⟩
  cases fate <;> simp [extractPdfPagesTextWithTimeout]

/-! ## C8 -/

theorem waitExponential_succ (k : Nat) :
    waitExponential (k + 1) = min (2 ^ k) 10 := by
  have h1 : 1 ≤ 2 ^ k := Nat.one_le_two_pow
  simp only [waitExponential, Nat.add_sub_cancel, Nat.one_mul]
  omega

/-- C8: the retry-wrapped per-page call makes at most 3 attempts; the wait
after the n-th failed attempt follows the exponential curve starting at 1,
doubling, capped at 10; when the first two attempts raise, the call's
outcome is exactly the third attempt's (so a third failure propagates its
exception), after waits of 1 then 2 time units; the immediate caller then
skips that page. -/
theorem per_page_retry_three_attempts_exponential :
    (∀ (E A : Type) (f : Nat → Except E A), (retryRun f).2.1 ≤ 3) ∧
    waitExponential 1 = 1 ∧
    (∀ n, 1 ≤ n → waitExponential (n + 1) = min (2 * waitExponential n) 10) ∧
    (∀ n, waitExponential n ≤ 10) ∧
    (∀ (E A : Type) (f : Nat → Except E A) (e₁ e₂ : E),
      f 1 = Except.error e₁ → f 2 = Except.error e₂ →
      (retryRun f).1 = f 3 ∧ (retryRun f).2.2 = [1, 2]) ∧
    (∀ (f : String → Option ResumeRec) (m : ResumeRec) (p : String)
        (ps : List String), p ≠ "" → f p = none →
      runPages f m (p :: ps) = ((runPages f m ps).1, p :: (runPages f m ps).2)) := by
  refine ⟨?_, by decide, ?_, ?_, ?_, ?_⟩
  · intro E A f
    unfold retryRun
    cases f 1 <;> cases f 2 <;> simp
  · intro n hn
    obtain ⟨k, rfl⟩ : ∃ k, n = k + 1 := ⟨n - 1, by omega⟩
    rw [waitExponential_succ, waitExponential_succ]
    have h1 : 1 ≤ 2 ^ k := Nat.one_le_two_pow
    have h2 : 2 ^ (k + 1) = 2 * 2 ^ k := by
      rw [pow_succ]; exact Nat.mul_comm _ _
    omega
  · intro n
    cases n with
    | zero => decide
    | succ k => rw [waitExponential_succ]; omega
  · intro E A f e₁ e₂ h1 h2
    constructor
    · simp [retryRun, h1, h2]
    · simp [retryRun, h1, h2]
      decide
  · intro f m p ps hp hf
    simp [runPages, hp, hf]

/-- C8 witness: the policy applied to a call whose attempts all fail, and a
page skipped after its extractor call fails. -/
theorem per_page_retry_three_attempts_exponential_witness :
    ((retryRun (fun _ => (Except.error () : Except Unit Unit))).1 =
        (fun _ => (Except.error () : Except Unit Unit)) 3 ∧
      (retryRun (fun _ => (Except.error () : Except Unit Unit))).2.2 = [1, 2]) ∧
    waitExponential (1 + 1) = min (2 * waitExponential 1) 10 ∧
    runPages (fun _ => none) emptyResult ["p"] =
      ((runPages (fun _ => none) emptyResult []).1,
        "p" :: (runPages (fun _ => none) emptyResult []).2) :=
  ⟨per_page_retry_three_attempts_exponential.2.2.2.2.1 Unit Unit
      (fun _ => Except.error ()) () () rfl rfl,
    per_page_retry_three_attempts_exponential.2.2.1 1 (by decide),
    per_page_retry_three_attempts_exponential.2.2.2.2.2
      (fun _ => none) emptyResult "p" [] (by decide) rfl⟩

/-! ## C5: experiences invariants -/

theorem dropWhile_head_false {α : Type} {p : α → Bool} :
    ∀ {l : List α} {c : α} {cs : List α}, l.dropWhile p = c :: cs → p c = false := by
  intro l
  induction l with
  | nil => intro c cs h; simp at h
  | cons a l ih =>
    intro c cs h
    rw [List.dropWhile_cons] at h
    by_cases ha : p a
    · rw [if_pos ha] at h
      exact ih h
    · rw [if_neg ha] at h
      cases h
      simpa using ha

theorem dropWhile_dropWhile {α : Type} (p : α → Bool) (l : List α) :
    (l.dropWhile p).dropWhile p = l.dropWhile p := by
  cases h : l.dropWhile p with
  | nil => simp
  | cons c cs =>
    have hc : p c = false := dropWhile_head_false h
    simp [List.dropWhile_cons, hc]

theorem exists_dropWhile_eq_append {α : Type} (p : α → Bool) (l : List α) :
    ∃ t, l = t ++ l.dropWhile p := by
  induction l with
  | nil => exact ⟨[], rfl⟩
  | cons a l ih =>
    by_cases ha : p a
    · obtain ⟨t, ht⟩ := ih
      exact ⟨a :: t, by simp [List.dropWhile_cons, ha]; exact ht⟩
    · exact ⟨[], by simp [List.dropWhile_cons, ha]⟩

theorem pyStripL_idem (l : List Char) : pyStripL (pyStripL l) = pyStripL l := by
  unfold pyStripL
  set p := isPySpace with hp
  set u := l.dropWhile p with hu
  set v := u.reverse.dropWhile p with hv
  have hA : v.reverse.dropWhile p = v.reverse := by
    cases hcase : v.reverse with
    | nil => simp
    | cons c cs =>
      obtain ⟨t, ht⟩ := exists_dropWhile_eq_append p u.reverse
      have hu2 : u = v.reverse ++ t.reverse := by
        have h2 := congrArg List.reverse ht
        rw [List.reverse_reverse, List.reverse_append] at h2
        rw [h2, hv]
      have hu3 : l.dropWhile p = c :: (cs ++ t.reverse) := by
        rw [← hu, hu2, hcase]
        simp
      have hpc : p c = false := dropWhile_head_false hu3
      simp [List.dropWhile_cons, hpc]
  rw [hA, List.reverse_reverse, hv, dropWhile_dropWhile]

theorem pyStrip_idem (s : String) : pyStrip (pyStrip s) = pyStrip s :=
  congrArg String.mk (pyStripL_idem s.data)

theorem mergeExperiences_eq_append :
    ∀ (E B : List String), mergeExperiences B E = B ++ newExperiences B E := by
  intro E
  induction E with
  | nil => intro B; simp [mergeExperiences, newExperiences]
  | cons e E ih =>
    intro B
    show (e :: E).foldl addExperience B = _
    rw [List.foldl_cons]
    simp only [newExperiences]
    by_cases hc : pyStrip e ≠ "" ∧ pyStrip e ∉ B
    · rw [if_pos hc]
      have ha : addExperience B e = B ++ [pyStrip e] := by
        simp only [addExperience, if_pos hc]
      rw [ha]
      have := ih (B ++ [pyStrip e])
      rw [mergeExperiences] at this
      rw [this]
      simp
    · rw [if_neg hc]
      have ha : addExperience B e = B := by
        simp only [addExperience, if_neg hc]
      rw [ha]
      have := ih B
      rw [mergeExperiences] at this
      rw [this]

theorem newExperiences_sublist :
    ∀ (E B : List String), List.Sublist (newExperiences B E) (E.map pyStrip) := by
  intro E
  induction E with
  | nil => intro B; simp [newExperiences]
  | cons e E ih =>
    intro B
    simp only [newExperiences, List.map_cons]
    by_cases hc : pyStrip e ≠ "" ∧ pyStrip e ∉ B
    · rw [if_pos hc]
      exact List.Sublist.cons₂ _ (ih _)
    · rw [if_neg hc]
      exact List.Sublist.cons _ (ih _)

theorem mem_newExperiences :
    ∀ (E B : List String) (x : String), x ∈ newExperiences B E →
      x ∉ B ∧ x ≠ "" ∧ pyStrip x = x := by
  intro E
  induction E with
  | nil => intro B x h; simp [newExperiences] at h
  | cons e E ih =>
    intro B x h
    simp only [newExperiences] at h
    by_cases hc : pyStrip e ≠ "" ∧ pyStrip e ∉ B
    · rw [if_pos hc] at h
      rcases List.mem_cons.mp h with heq | h2
      · subst heq
        exact ⟨hc.2, hc.1, pyStrip_idem e⟩
      · have h3 := ih _ _ h2
        exact ⟨fun hx => h3.1 (List.mem_append_left _ hx), h3.2⟩
    · rw [if_neg hc] at h
      exact ih _ _ h

theorem nodup_append_newExperiences :
    ∀ (E B : List String), B.Nodup → (B ++ newExperiences B E).Nodup := by
  intro E
  induction E with
  | nil => intro B h; simpa [newExperiences] using h
  | cons e E ih =>
    intro B h
    simp only [newExperiences]
    by_cases hc : pyStrip e ≠ "" ∧ pyStrip e ∉ B
    · rw [if_pos hc]
      have hsplit : B ++ pyStrip e :: newExperiences (B ++ [pyStrip e]) E
          = (B ++ [pyStrip e]) ++ newExperiences (B ++ [pyStrip e]) E := by
        simp
      rw [hsplit]
      apply ih
      simp [List.nodup_append, h, hc.2]
    · rw [if_neg hc]
      exact ih _ h

theorem fold_experiences_invariant :
    ∀ (ps : List ResumeRec) (acc : ResumeRec),
      acc.experiences.Nodup → (∀ x ∈ acc.experiences, x ≠ "" ∧ pyStrip x = x) →
      (ps.foldl mergeResults acc).experiences.Nodup ∧
        ∀ x ∈ (ps.foldl mergeResults acc).experiences, x ≠ "" ∧ pyStrip x = x := by
  intro ps
  induction ps with
  | nil => intro acc h1 h2; exact ⟨h1, h2⟩
  | cons u ps ih =>
    intro acc h1 h2
    rw [List.foldl_cons]
    apply ih
    · rw [mergeResults_experiences, mergeExperiences_eq_append]
      exact nodup_append_newExperiences _ _ h1
    · intro x hx
      rw [mergeResults_experiences, mergeExperiences_eq_append] at hx
      rcases List.mem_append.mp hx with h | h
      · exact h2 x h
      · have h3 := mem_newExperiences _ _ _ h
        exact ⟨h3.2.1, h3.2.2⟩

/-- C5: in every aggregate reachable by folding partial records from the
empty record, the experiences list has no duplicates and no entry that is
empty or untrimmed; each merge appends exactly the partial's new entries —
trimmed, not yet present, in the partial's own order (a sublist of the
trimmed partial entries) — to the end of the aggregate's list. -/
theorem experiences_unique_trimmed_first_seen :
    (∀ ps : List ResumeRec,
      (ps.foldl mergeResults emptyResult).experiences.Nodup ∧
      ∀ x ∈ (ps.foldl mergeResults emptyResult).experiences,
        x ≠ "" ∧ pyStrip x = x) ∧
    (∀ b u : ResumeRec,
      (mergeResults b u).experiences =
        b.experiences ++ newExperiences b.experiences u.experiences) ∧
    (∀ B E : List String, List.Sublist (newExperiences B E) (E.map pyStrip)) ∧
    (∀ B E : List String, ∀ x ∈ newExperiences B E, x ∉ B) :=
  ⟨fun ps => fold_experiences_invariant ps emptyResult (by simp [emptyResult])
      (by simp [emptyResult]),
   fun b u => by rw [mergeResults_experiences, mergeExperiences_eq_append],
   fun B E => newExperiences_sublist E B,
   fun B E x h => (mem_newExperiences E B x h).1⟩

/-- C5 witness: the invariant evaluated on a concrete fold ("` E `" is
stored trimmed as "E"), and a concrete new entry absent from the base. -/
theorem experiences_unique_trimmed_first_seen_witness :
    ("E" ≠ "" ∧ pyStrip "E" = "E") ∧ ("B" ∉ (["A"] : List String)) :=
  ⟨(experiences_unique_trimmed_first_seen.1
      [⟨none, none, none, none, [" E "]⟩]).2 "E" (by decide),
   experiences_unique_trimmed_first_seen.2.2.2 ["A"] ["B"] "B" (by decide)⟩

/-! ## C4 -/

/-- C4 counterexample: with a content (`"{x}"`) that is not valid JSON and
whose salvaged substring is not valid JSON either (modelled by a `loads`
that fails on every input), the attempt RAISES (result `none`) instead of
yielding the empty object; moreover the salvage regex extracts the span
from the first `'{'` to the LAST `'}'` — `"{a}y{b}"` — not the first
balanced group `"{a}"`. -/
theorem salvage_raises_and_not_first_balanced_cex :
    parseWithSalvage (fun _ => (none : Option Unit)) () "{x}" = none ∧
    braceSearchStr "x{a}y{b}z" = some "{a}y{b}" ∧
    ("{a}y{b}" : String) ≠ "{a}" := by
  decide

/-- C4 amended: when the full response text fails to parse, the attempt
re-parses the substring matched by the brace regex (first `'{'` through the
last `'}'`, not necessarily balanced) if one exists — a failure of THAT
parse propagates as an exception (result `none`) — and only when no such
substring exists does the attempt yield the empty object (which normalizes
to the all-absent partial). -/
theorem salvage_first_to_last_brace_or_empty (D : Type)
    (loads : String → Option D) (emptyD : D) (content : String)
    (h : loads content = none) :
    parseWithSalvage loads emptyD content =
      match braceSearchStr content with
      | some sub => loads sub
      | none => some emptyD := by
  unfold parseWithSalvage
  rw [h]

/-- C4 witness: the amended rule applied to a brace-free unparsable
content, yielding the empty object. -/
theorem salvage_first_to_last_brace_or_empty_witness :
    parseWithSalvage (fun _ => (none : Option Unit)) () "abc" =
      match braceSearchStr "abc" with
      | some sub => (fun _ => (none : Option Unit)) sub
      | none => some () :=
  salvage_first_to_last_brace_or_empty Unit (fun _ => none) () "abc" rfl

/-! ## C6 -/

theorem string_length_pos {s : String} (h : s ≠ "") : 0 < s.length := by
  cases s with
  | mk l =>
    cases l with
    | nil => exact absurd rfl h
    | cons c cs => simp [String.length]

/-- C6: the merge replaces the aggregate's name iff the partial's name is
non-empty and (the aggregate's is empty or the partial's is strictly
longer); it replaces education iff the partial's is non-empty and (the
aggregate's is absent or the partial's is strictly longer); equal lengths
keep the existing value — "Jo" merged with "Jo" is unchanged, with
"Joanna" becomes "Joanna". -/
theorem merge_name_education_longer_wins :
    (∀ b u : ResumeRec,
      ((mergeResults b u).name =
        if (u.name ≠ none ∧ u.name ≠ some "") ∧
            (b.name = none ∨ b.name = some "" ∨
              (b.name.getD "").length < (u.name.getD "").length) then
          some (pyStrip (u.name.getD ""))
        else b.name) ∧
      ((mergeResults b u).education =
        if (u.education ≠ none ∧ u.education ≠ some "") ∧
            (b.education = none ∨
              (b.education.getD "").length < (u.education.getD "").length) then
          some (pyStrip (u.education.getD ""))
        else b.education)) ∧
    mergeResults { emptyResult with name := some "Jo" }
        { emptyResult with name := some "Jo" } =
      { emptyResult with name := some "Jo" } ∧
    (mergeResults { emptyResult with name := some "Jo" }
        { emptyResult with name := some "Joanna" }).name = some "Joanna" := by
  refine ⟨fun b u => ⟨?_, ?_⟩, by decide, by decide⟩
  · rw [mergeResults_name]
    refine if_congr ?_ rfl rfl
    cases hu : u.name with
    | none => simp [pyTruthy]
    | some s =>
      cases hb : b.name with
      | none => simp [pyTruthy]
      | some t => simp [pyTruthy]
  · rw [mergeResults_education]
    cases hu : u.education with
    | none => simp [pyTruthy]
    | some s =>
      by_cases hs : s = ""
      · subst hs; simp [pyTruthy]
      · cases hb : b.education with
        | none => simp [pyTruthy, hs]
        | some t =>
          by_cases ht : t = ""
          · subst ht
            have hpos : 0 < s.length := string_length_pos hs
            simp [pyTruthy, hs, hpos]
          · by_cases hlt : t.length < s.length <;>
              simp [pyTruthy, hs, ht, hlt]

/-! ## C9 -/

/-- C9: merging the all-empty partial into any aggregate returns that
aggregate; more generally, a partial whose experiences are all empty after
trimming or already present, and whose other fields trigger no replacement,
leaves the aggregate unchanged. -/
theorem merge_empty_partial_identity :
    (∀ A : ResumeRec, mergeResults A emptyResult = A) ∧
    (∀ A u : ResumeRec,
      ¬(pyTruthy u.name ∧ (¬ pyTruthy A.name ∨
          (A.name.getD "").length < (u.name.getD "").length)) →
      pyNormalizeEmail u.email = none →
      pyNormalizeGithub u.github = none →
      ¬(pyTruthy u.education ∧ (¬ pyTruthy A.education ∨
          (A.education.getD "").length < (u.education.getD "").length)) →
      (∀ e ∈ u.experiences, pyStrip e = "" ∨ pyStrip e ∈ A.experiences) →
      mergeResults A u = A) := by
  constructor
  · intro A
    apply resume_ext
    · rw [mergeResults_name]
      exact if_neg (by simp [emptyResult, pyTruthy])
    · rw [mergeResults_email]
      rfl
    · rw [mergeResults_github]
      rfl
    · rw [mergeResults_education]
      simp [emptyResult, pyTruthy]
    · rw [mergeResults_experiences]
      exact foldl_addExperience_of_contained _ _ (by simp [emptyResult])
  · intro A u h1 h2 h3 h4 h5
    have hexp : mergeExperiences A.experiences u.experiences = A.experiences :=
      foldl_addExperience_of_contained _ _ h5
    apply resume_ext
    · rw [mergeResults_name]
      exact if_neg h1
    · rw [mergeResults_email, h2]
    · rw [mergeResults_github, h3]
    · rw [mergeResults_education]
      split_ifs with hu hd hl
      · exact absurd ⟨hu, Or.inr hl⟩ h4
      · rfl
      · exact absurd ⟨hu, Or.inl hd⟩ h4
      · rfl
    · rw [mergeResults_experiences]
      exact hexp

/-- C9 witness: a concrete aggregate unchanged by a partial with a shorter
name and already-present or blank experiences. -/
theorem merge_empty_partial_identity_witness :
    mergeResults ⟨some "Bob", some "a@x.com", none, none, ["E1"]⟩
        ⟨some "Al", none, none, none, ["E1", " "]⟩ =
      ⟨some "Bob", some "a@x.com", none, none, ["E1"]⟩ :=
  merge_empty_partial_identity.2
    ⟨some "Bob", some "a@x.com", none, none, ["E1"]⟩
    ⟨some "Al", none, none, none, ["E1", " "]⟩
    (by decide) rfl rfl (by decide) (by decide)

/-! ## C10: generic `re.search` lemmas -/

theorem reSearch_eq_some {f : List Char → Option (List Char × List Char)}
    (hf : ∀ xs m r, f xs = some (m, r) → xs = m ++ r) :
    ∀ {cs p m r : List Char}, reSearch f cs = some (p, m, r) →
      cs = p ++ m ++ r ∧ f (m ++ r) = some (m, r) := by
  intro cs
  induction cs with
  | nil =>
    intro p m r h
    simp only [reSearch] at h
    cases hfe : f [] with
    | none => rw [hfe] at h; simp at h
    | some x =>
      obtain ⟨m0, r0⟩ := x
      rw [hfe] at h
      simp only [Option.some.injEq, Prod.mk.injEq] at h
      obtain ⟨hp, hm, hr⟩ := h
      subst hp; subst hm; subst hr
      have h2 := hf [] m0 r0 hfe
      exact ⟨by simpa using h2, by rw [← h2]; exact hfe⟩
  | cons c cs ih =>
    intro p m r h
    simp only [reSearch] at h
    cases hfe : f (c :: cs) with
    | some x =>
      obtain ⟨m0, r0⟩ := x
      rw [hfe] at h
      simp only [Option.some.injEq, Prod.mk.injEq] at h
      obtain ⟨hp, hm, hr⟩ := h
      subst hp; subst hm; subst hr
      have h2 := hf _ m0 r0 hfe
      exact ⟨by simpa using h2, by rw [← h2]; exact hfe⟩
    | none =>
      rw [hfe] at h
      cases hr : reSearch f cs with
      | none => rw [hr] at h; simp at h
      | some y =>
        obtain ⟨p0, m0, r0⟩ := y
        rw [hr] at h
        simp only [Option.map_some', Option.some.injEq, Prod.mk.injEq] at h
        obtain ⟨hp, hm, hrr⟩ := h
        subst hp; subst hm; subst hrr
        obtain ⟨hcs, hfm⟩ := ih hr
        exact ⟨by simp [hcs], hfm⟩

theorem reSearch_eq_none {f : List Char → Option (List Char × List Char)} :
    ∀ {cs : List Char}, reSearch f cs = none →
      ∀ pre rest, cs = pre ++ rest → f rest = none := by
  intro cs
  induction cs with
  | nil =>
    intro h pre rest hsplit
    obtain ⟨hp0, hr0⟩ := List.append_eq_nil.mp hsplit.symm
    rw [hr0]
    simp only [reSearch] at h
    cases hfe : f [] with
    | none => rfl
    | some x => obtain ⟨m, r⟩ := x; rw [hfe] at h; simp at h
  | cons c cs ih =>
    intro h pre rest hsplit
    simp only [reSearch] at h
    cases hfe : f (c :: cs) with
    | some x => obtain ⟨m, r⟩ := x; rw [hfe] at h; simp at h
    | none =>
      rw [hfe] at h
      have hrec : reSearch f cs = none := by
        cases hr : reSearch f cs with
        | none => rfl
        | some y => rw [hr] at h; simp at h
      cases pre with
      | nil =>
        simp only [List.nil_append] at hsplit
        rw [← hsplit]
        exact hfe
      | cons c' pre' =>
        simp only [List.cons_append, List.cons.injEq] at hsplit
        exact ih hrec pre' rest hsplit.2

theorem reSearch_ne_none {f : List Char → Option (List Char × List Char)} :
    ∀ (pre : List Char) {cs rest : List Char}, cs = pre ++ rest →
      f rest ≠ none → reSearch f cs ≠ none := by
  intro pre
  induction pre with
  | nil =>
    intro cs rest hsplit hf
    rw [show cs = rest from by simpa using hsplit]
    cases hfe : f rest with
    | none => exact absurd hfe hf
    | some x =>
      obtain ⟨m, r⟩ := x
      cases rest <;> simp [reSearch, hfe]
  | cons c pre' ih =>
    intro cs rest hsplit hf
    subst hsplit
    simp only [List.cons_append]
    cases hfe : f (c :: (pre' ++ rest)) with
    | some x => obtain ⟨m, r⟩ := x; simp [reSearch, hfe]
    | none =>
      simp only [reSearch, hfe]
      cases hr : reSearch f (pre' ++ rest) with
      | none => exact absurd hr (ih rfl hf)
      | some y => obtain ⟨p0, m0, r0⟩ := y; simp

theorem reSearch_leftmost {f : List Char → Option (List Char × List Char)} :
    ∀ {cs p m r : List Char}, reSearch f cs = some (p, m, r) →
      ∀ pre rest, cs = pre ++ rest → pre.length < p.length → f rest = none := by
  intro cs
  induction cs with
  | nil =>
    intro p m r h pre rest hsplit hlen
    simp only [reSearch] at h
    cases hfe : f [] with
    | none => rw [hfe] at h; simp at h
    | some x =>
      obtain ⟨m0, r0⟩ := x
      rw [hfe] at h
      simp only [Option.some.injEq, Prod.mk.injEq] at h
      rw [← h.1] at hlen
      simp at hlen
  | cons c cs ih =>
    intro p m r h pre rest hsplit hlen
    simp only [reSearch] at h
    cases hfe : f (c :: cs) with
    | some x =>
      obtain ⟨m0, r0⟩ := x
      rw [hfe] at h
      simp only [Option.some.injEq, Prod.mk.injEq] at h
      rw [← h.1] at hlen
      simp at hlen
    | none =>
      rw [hfe] at h
      cases hr : reSearch f cs with
      | none => rw [hr] at h; simp at h
      | some y =>
        obtain ⟨p0, m0, r0⟩ := y
        rw [hr] at h
        simp only [Option.map_some', Option.some.injEq, Prod.mk.injEq] at h
        obtain ⟨hp, hm, hrr⟩ := h
        cases pre with
        | nil =>
          simp only [List.nil_append] at hsplit
          rw [← hsplit]
          exact hfe
        | cons c' pre' =>
          simp only [List.cons_append, List.cons.injEq] at hsplit
          rw [← hp] at hlen
          simp only [List.length_cons, Nat.succ_lt_succ_iff] at hlen
          exact ih hr pre' rest hsplit.2 hlen

/-! ## C10: list helper lemmas -/

theorem mem_takeWhile_sat {α : Type} {p : α → Bool} :
    ∀ {l : List α} {x : α}, x ∈ l.takeWhile p → p x = true := by
  intro l
  induction l with
  | nil => intro x h; simp at h
  | cons a l ih =>
    intro x h
    rw [List.takeWhile_cons] at h
    by_cases ha : p a
    · rw [if_pos ha] at h
      rcases List.mem_cons.mp h with heq | h2
      · rw [heq]; exact ha
      · exact ih h2
    · rw [if_neg ha] at h
      simp at h

theorem takeWhile_dropWhile_append {α : Type} {p : α → Bool} :
    ∀ (a : List α) (y : α) (z : List α), (∀ x ∈ a, p x = true) → p y = false →
      (a ++ y :: z).takeWhile p = a ∧ (a ++ y :: z).dropWhile p = y :: z := by
  intro a
  induction a with
  | nil =>
    intro y z _ hy
    constructor <;> simp [List.takeWhile_cons, List.dropWhile_cons, hy]
  | cons b a ih =>
    intro y z hall hy
    have hb : p b = true := hall b (by simp)
    obtain ⟨h1, h2⟩ := ih y z (fun x hx => hall x (by simp [hx])) hy
    constructor <;>
      simp [List.takeWhile_cons, List.dropWhile_cons, hb, h1, h2]

theorem takeWhile_length_le_append {α : Type} {p : α → Bool} :
    ∀ (pre suf : List α), (∀ x ∈ pre, p x = true) →
      pre.length ≤ ((pre ++ suf).takeWhile p).length := by
  intro pre
  induction pre with
  | nil => intro suf _; simp
  | cons b pre ih =>
    intro suf hall
    have hb : p b = true := hall b (by simp)
    simp only [List.cons_append, List.takeWhile_cons, if_pos hb, List.length_cons]
    exact Nat.succ_le_succ (ih suf (fun x hx => hall x (by simp [hx])))

theorem mem_take_sat {α : Type} {p : α → Bool} :
    ∀ (l : List α) (q : Nat) (x : α), q ≤ (l.takeWhile p).length →
      x ∈ l.take q → p x = true := by
  intro l
  induction l with
  | nil => intro q x _ h; simp at h
  | cons a l ih =>
    intro q x hq hx
    cases q with
    | zero => simp at hx
    | succ q' =>
      by_cases ha : p a
      · rw [List.takeWhile_cons, if_pos ha] at hq
        simp only [List.length_cons, Nat.succ_le_succ_iff] at hq
        rw [List.take_succ_cons] at hx
        rcases List.mem_cons.mp hx with heq | h2
        · rw [heq]; exact ha
        · exact ih q' x hq h2
      · rw [List.takeWhile_cons, if_neg ha] at hq
        simp at hq

theorem getElem_append_len {α : Type} :
    ∀ (xs : List α) (y : α) (ys : List α), (xs ++ y :: ys)[xs.length]? = some y := by
  intro xs
  induction xs with
  | nil => intro y ys; simp
  | cons a xs ih => intro y ys; simpa using ih y ys

theorem drop_append_len_succ {α : Type} :
    ∀ (xs : List α) (y : α) (ys : List α),
      (xs ++ y :: ys).drop (xs.length + 1) = ys := by
  intro xs
  induction xs with
  | nil => intro y ys; rfl
  | cons a xs ih => intro y ys; simp [ih y ys]

theorem drop_eq_cons_of_getElem {α : Type} :
    ∀ (l : List α) (q : Nat) (y : α), l[q]? = some y →
      l.drop q = y :: l.drop (q + 1) := by
  intro l
  induction l with
  | nil => intro q y h; simp at h
  | cons a l ih =>
    intro q y h
    cases q with
    | zero =>
      simp only [List.getElem?_cons_zero, Option.some.injEq] at h
      rw [h]
      rfl
    | succ q' =>
      simp only [List.getElem?_cons_succ] at h
      simpa using ih q' y h

theorem map_eq_append_decomp {α β : Type} (f : α → β) :
    ∀ (xs : List β) (l : List α) (ys : List β), l.map f = xs ++ ys →
      ∃ l₁ l₂, l = l₁ ++ l₂ ∧ l₁.map f = xs ∧ l₂.map f = ys := by
  intro xs
  induction xs with
  | nil => intro l ys h; exact ⟨[], l, rfl, rfl, h⟩
  | cons x xs ih =>
    intro l ys h
    cases l with
    | nil => simp at h
    | cons a l' =>
      simp only [List.map_cons, List.cons_append, List.cons.injEq] at h
      obtain ⟨l₁, l₂, rfl, hm1, hm2⟩ := ih l' ys h.2
      exact ⟨a :: l₁, l₂, rfl, by simp [hm1, h.1], hm2⟩

/-! ## C10: email matcher lemmas -/

theorem tryDot_sound :
    ∀ (P : Nat) (r m rest : List Char), tryDot r P = some (m, rest) →
      ∃ q, 1 ≤ q ∧ q ≤ P ∧ r[q]? = some '.' ∧
        2 ≤ ((r.drop (q + 1)).takeWhile isTChar).length ∧
        m = r.take q ++ '.' :: (r.drop (q + 1)).takeWhile isTChar ∧
        rest = (r.drop (q + 1)).dropWhile isTChar := by
  intro P
  induction P with
  | zero => intro r m rest h; simp [tryDot] at h
  | succ p ih =>
    intro r m rest h
    simp only [tryDot] at h
    by_cases hc : r[p + 1]? = some '.' ∧
        2 ≤ ((r.drop (p + 1 + 1)).takeWhile isTChar).length
    · rw [if_pos hc] at h
      simp only [Option.some.injEq, Prod.mk.injEq] at h
      exact ⟨p + 1, by omega, Nat.le_refl _, hc.1, hc.2, h.1.symm, h.2.symm⟩
    · rw [if_neg hc] at h
      obtain ⟨q, h1, h2, h3, h4, h5, h6⟩ := ih r m rest h
      exact ⟨q, h1, by omega, h3, h4, h5, h6⟩

theorem tryDot_ne_none :
    ∀ (P q : Nat) (r : List Char), 1 ≤ q → q ≤ P → r[q]? = some '.' →
      2 ≤ ((r.drop (q + 1)).takeWhile isTChar).length → tryDot r P ≠ none := by
  intro P
  induction P with
  | zero => intro q r h1 h2 _ _; omega
  | succ p ih =>
    intro q r h1 h2 h3 h4
    simp only [tryDot]
    by_cases hc : r[p + 1]? = some '.' ∧
        2 ≤ ((r.drop (p + 1 + 1)).takeWhile isTChar).length
    · rw [if_pos hc]; simp
    · rw [if_neg hc]
      have hq : q ≤ p := by
        rcases Nat.lt_or_ge q (p + 1) with hlt | hge
        · omega
        · exfalso
          have heq : q = p + 1 := by omega
          rw [heq] at h3 h4
          exact hc ⟨h3, h4⟩
      exact ih q r h1 hq h3 h4

theorem emailMatchAt_sound {cs m rest : List Char}
    (h : emailMatchAt cs = some (m, rest)) : cs = m ++ rest ∧ EmailShaped m := by
  unfold emailMatchAt at h
  cases hd : cs.dropWhile isLChar with
  | nil => rw [hd] at h; simp at h
  | cons d r =>
    rw [hd] at h
    replace h : (if cs.takeWhile isLChar = [] ∨ d ≠ '@' then none
        else
          match tryDot r (r.takeWhile isMChar).length with
          | some (m1, rest1) => some (cs.takeWhile isLChar ++ '@' :: m1, rest1)
          | none => none) = some (m, rest) := h
    by_cases hcond : cs.takeWhile isLChar = [] ∨ d ≠ '@'
    · rw [if_pos hcond] at h; simp at h
    · rw [if_neg hcond] at h
      push_neg at hcond
      obtain ⟨hl, hdat⟩ := hcond
      subst hdat
      cases htd : tryDot r (r.takeWhile isMChar).length with
      | none => rw [htd] at h; simp at h
      | some pr =>
        obtain ⟨m0, rest0⟩ := pr
        rw [htd] at h
        simp only [Option.some.injEq, Prod.mk.injEq] at h
        obtain ⟨hm, hrest⟩ := h
        obtain ⟨q, hq1, hq2, hdot, htl, hm0, hrest0⟩ :=
          tryDot_sound _ r m0 rest0 htd
        have hrq : r.drop q = '.' :: r.drop (q + 1) :=
          drop_eq_cons_of_getElem r q '.' hdot
        have hrsplit : r = r.take q ++ '.' :: r.drop (q + 1) := by
          conv_lhs => rw [← List.take_append_drop q r]
          rw [hrq]
        have hdrop : r.drop (q + 1) =
            (r.drop (q + 1)).takeWhile isTChar ++
              (r.drop (q + 1)).dropWhile isTChar :=
          (List.takeWhile_append_dropWhile (p := isTChar)
            (l := r.drop (q + 1))).symm
        have hcs : cs = cs.takeWhile isLChar ++ '@' :: r := by
          conv_lhs => rw [← List.takeWhile_append_dropWhile (p := isLChar) (l := cs)]
          rw [hd]
        constructor
        · rw [hcs, ← hm, ← hrest, hm0, hrest0]
          conv_lhs => rw [hrsplit, hdrop]
          simp
        · rw [← hm, hm0]
          refine ⟨cs.takeWhile isLChar, r.take q,
            (r.drop (q + 1)).takeWhile isTChar, rfl, hl, ?_, ?_, ?_, htl, ?_⟩
          · intro x hx; exact mem_takeWhile_sat hx
          · have hqlen : q < r.length := by
              by_contra hge
              push_neg at hge
              rw [List.getElem?_eq_none hge] at hdot
              simp at hdot
            have : (r.take q).length = q := by
              rw [List.length_take]; omega
            intro hnil
            rw [hnil] at this
            simp at this
            omega
          · intro x hx; exact mem_take_sat r q x hq2 hx
          · intro x hx; exact mem_takeWhile_sat hx

theorem emailMatchAt_ne_none {s rest0 : List Char} (hs : EmailShaped s) :
    emailMatchAt (s ++ rest0) ≠ none := by
  obtain ⟨a, b, c, hdecomp, ha, haL, hb, hbM, hc2, hcT⟩ := hs
  subst hdecomp
  have hcs : (a ++ '@' :: (b ++ '.' :: c)) ++ rest0 =
      a ++ '@' :: (b ++ '.' :: (c ++ rest0)) := by simp
  rw [hcs]
  have hat : isLChar '@' = false := by decide
  obtain ⟨htw, hdw⟩ :=
    takeWhile_dropWhile_append a '@' (b ++ '.' :: (c ++ rest0)) haL hat
  unfold emailMatchAt
  rw [hdw]
  show (if (a ++ '@' :: (b ++ '.' :: (c ++ rest0))).takeWhile isLChar = [] ∨
        ('@' : Char) ≠ '@' then none
      else
        match tryDot (b ++ '.' :: (c ++ rest0))
            ((b ++ '.' :: (c ++ rest0)).takeWhile isMChar).length with
        | some (m1, rest1) =>
          some ((a ++ '@' :: (b ++ '.' :: (c ++ rest0))).takeWhile isLChar ++
            '@' :: m1, rest1)
        | none => none) ≠ none
  rw [htw]
  rw [if_neg (by simp [ha])]
  have hq : (b ++ '.' :: (c ++ rest0))[b.length]? = some '.' :=
    getElem_append_len b '.' (c ++ rest0)
  have hdropq : (b ++ '.' :: (c ++ rest0)).drop (b.length + 1) = c ++ rest0 :=
    drop_append_len_succ b '.' (c ++ rest0)
  have htwlen : 2 ≤ (((b ++ '.' :: (c ++ rest0)).drop (b.length + 1)).takeWhile
      isTChar).length := by
    rw [hdropq]
    have hle := takeWhile_length_le_append (p := isTChar) c rest0 hcT
    omega
  have hP : b.length ≤ ((b ++ '.' :: (c ++ rest0)).takeWhile isMChar).length := by
    have hdotM : isMChar '.' = true := by decide
    have hallM : ∀ x ∈ b ++ ['.'], isMChar x = true := by
      intro x hx
      rcases List.mem_append.mp hx with h | h
      · exact hbM x h
      · simp at h; rw [h]; exact hdotM
    have hassoc : (b ++ ['.']) ++ (c ++ rest0) = b ++ '.' :: (c ++ rest0) := by
      simp
    have := takeWhile_length_le_append (p := isMChar) (b ++ ['.']) (c ++ rest0)
      hallM
    rw [hassoc] at this
    simp only [List.length_append, List.length_cons, List.length_nil] at this
    omega
  have h1q : 1 ≤ b.length := by
    cases b with
    | nil => exact absurd rfl hb
    | cons x xs => simp
  have hne := tryDot_ne_none ((b ++ '.' :: (c ++ rest0)).takeWhile isMChar).length
    b.length (b ++ '.' :: (c ++ rest0)) h1q hP hq htwlen
  cases htd : tryDot (b ++ '.' :: (c ++ rest0))
      ((b ++ '.' :: (c ++ rest0)).takeWhile isMChar).length with
  | none => exact absurd htd hne
  | some x =>
    obtain ⟨m0, r0⟩ := x
    simp [htd]

/-! ## C10: github matcher lemmas -/

theorem lowerList_append (a b : List Char) :
    lowerList (a ++ b) = lowerList a ++ lowerList b := by
  simp [lowerList]

theorem ciStrip_sound :
    ∀ (lit cs m r : List Char), ciStrip lit cs = some (m, r) →
      cs = m ++ r ∧ lowerList m = lowerList lit := by
  intro lit
  induction lit with
  | nil =>
    intro cs m r h
    simp only [ciStrip, Option.some.injEq, Prod.mk.injEq] at h
    obtain ⟨hm, hr⟩ := h
    subst hm
    subst hr
    exact ⟨rfl, rfl⟩
  | cons l ls ih =>
    intro cs m r h
    cases cs with
    | nil => simp [ciStrip] at h
    | cons c cs' =>
      simp only [ciStrip] at h
      by_cases hc : c.toLower = l.toLower
      · rw [if_pos hc] at h
        cases hci : ciStrip ls cs' with
        | none => rw [hci] at h; simp at h
        | some x =>
          obtain ⟨m1, r1⟩ := x
          rw [hci] at h
          simp only [Option.map_some', Option.some.injEq, Prod.mk.injEq] at h
          obtain ⟨hm, hr⟩ := h
          obtain ⟨hcs, hlow⟩ := ih cs' m1 r1 hci
          subst hm
          subst hr
          refine ⟨by simp [hcs], ?_⟩
          simp only [lowerList, List.map_cons] at hlow ⊢
          rw [hc, hlow]
      · rw [if_neg hc] at h
        simp at h

theorem ciStrip_complete :
    ∀ (lit pre rest : List Char), lowerList pre = lowerList lit →
      ciStrip lit (pre ++ rest) = some (pre, rest) := by
  intro lit
  induction lit with
  | nil =>
    intro pre rest h
    have hp : pre = [] := by simpa [lowerList] using h
    subst hp
    rfl
  | cons l ls ih =>
    intro pre rest h
    cases pre with
    | nil => simp [lowerList] at h
    | cons c pre' =>
      simp only [lowerList, List.map_cons, List.cons.injEq] at h
      obtain ⟨h1, h2⟩ := h
      simp only [List.cons_append, ciStrip, List.append_eq]
      rw [if_pos h1, ih pre' rest (by simpa [lowerList] using h2)]
      rfl

theorem ghCore_sound {consumed rr m rest : List Char}
    (h : ghCore consumed rr = some (m, rest)) :
    ∃ m3 g, rr = m3 ++ g ++ rest ∧ m = consumed ++ m3 ++ g ∧
      lowerList m3 = "github.com/".data ∧ g ≠ [] ∧
      ∀ x ∈ g, isGChar x = true := by
  unfold ghCore at h
  cases hci : ciStrip "github.com/".data rr with
  | none => rw [hci] at h; simp at h
  | some x =>
    obtain ⟨m3, r3⟩ := x
    rw [hci] at h
    replace h : (if (r3.takeWhile isGChar).length = 0 then none
        else some (consumed ++ m3 ++ r3.takeWhile isGChar,
          r3.dropWhile isGChar)) = some (m, rest) := h
    by_cases hg : (r3.takeWhile isGChar).length = 0
    · rw [if_pos hg] at h; simp at h
    · rw [if_neg hg] at h
      simp only [Option.some.injEq, Prod.mk.injEq] at h
      obtain ⟨hm, hrest⟩ := h
      obtain ⟨hrr, hlow⟩ := ciStrip_sound _ _ _ _ hci
      refine ⟨m3, r3.takeWhile isGChar, ?_, hm.symm, ?_, ?_, ?_⟩
      · rw [hrr, ← hrest]
        conv_lhs =>
          rw [← List.takeWhile_append_dropWhile (p := isGChar) (l := r3)]
        simp
      · rw [hlow]; decide
      · intro hnil; rw [hnil] at hg; simp at hg
      · intro x hx; exact mem_takeWhile_sat hx

theorem ghTail_sound {consumed r2 m rest : List Char}
    (h : ghTail consumed r2 = some (m, rest)) :
    ∃ w m3 g, r2 = w ++ m3 ++ g ++ rest ∧ m = consumed ++ w ++ m3 ++ g ∧
      (w = [] ∨ lowerList w = "www.".data) ∧
      lowerList m3 = "github.com/".data ∧ g ≠ [] ∧
      ∀ x ∈ g, isGChar x = true := by
  unfold ghTail at h
  cases hci : ciStrip "www.".data r2 with
  | none =>
    rw [hci] at h
    obtain ⟨m3, g, hsplit, hm, hlow, hg, hgG⟩ := ghCore_sound h
    exact ⟨[], m3, g, by simpa using hsplit, by simpa using hm, Or.inl rfl,
      hlow, hg, hgG⟩
  | some x =>
    obtain ⟨mw, r4⟩ := x
    rw [hci] at h
    replace h : (match ghCore (consumed ++ mw) r4 with
        | some y => some y
        | none => ghCore consumed r2) = some (m, rest) := h
    cases hcore : ghCore (consumed ++ mw) r4 with
    | some y =>
      rw [hcore] at h
      obtain ⟨ym, yr⟩ := y
      simp only [Option.some.injEq, Prod.mk.injEq] at h
      obtain ⟨h1e, h2e⟩ := h
      subst h1e
      subst h2e
      obtain ⟨m3, g, hsplit, hm, hlow3, hg, hgG⟩ := ghCore_sound hcore
      obtain ⟨hr2, hloww⟩ := ciStrip_sound _ _ _ _ hci
      refine ⟨mw, m3, g, ?_, ?_, Or.inr (by rw [hloww]; decide), hlow3, hg, hgG⟩
      · rw [hr2, hsplit]; simp
      · rw [hm]
    | none =>
      rw [hcore] at h
      obtain ⟨m3, g, hsplit, hm, hlow, hg, hgG⟩ := ghCore_sound h
      exact ⟨[], m3, g, by simpa using hsplit, by simpa using hm, Or.inl rfl,
        hlow, hg, hgG⟩

theorem ghAfterHttp_sound {consumed r m rest : List Char}
    (h : ghAfterHttp consumed r = some (m, rest)) :
    ∃ m2 w m3 g, r = m2 ++ w ++ m3 ++ g ++ rest ∧
      m = consumed ++ m2 ++ w ++ m3 ++ g ∧ lowerList m2 = "://".data ∧
      (w = [] ∨ lowerList w = "www.".data) ∧
      lowerList m3 = "github.com/".data ∧ g ≠ [] ∧
      ∀ x ∈ g, isGChar x = true := by
  unfold ghAfterHttp at h
  cases hci : ciStrip "://".data r with
  | none => rw [hci] at h; simp at h
  | some x =>
    obtain ⟨m2, r2⟩ := x
    rw [hci] at h
    replace h : ghTail (consumed ++ m2) r2 = some (m, rest) := h
    obtain ⟨w, m3, g, hsplit, hm, hw, hlow3, hg, hgG⟩ := ghTail_sound h
    obtain ⟨hr, hlow2⟩ := ciStrip_sound _ _ _ _ hci
    refine ⟨m2, w, m3, g, ?_, ?_, by rw [hlow2]; decide, hw, hlow3, hg, hgG⟩
    · rw [hr, hsplit]; simp
    · rw [hm]

theorem githubShaped_build (m1 sPart m2 w m3 g : List Char)
    (h1 : lowerList m1 = "http".data)
    (hsp : sPart = [] ∨ lowerList sPart = ['s'])
    (h2 : lowerList m2 = "://".data)
    (hw : w = [] ∨ lowerList w = "www.".data)
    (h3 : lowerList m3 = "github.com/".data) (hg : g ≠ [])
    (hgG : ∀ x ∈ g, isGChar x = true) :
    GithubShaped (m1 ++ sPart ++ m2 ++ w ++ m3 ++ g) := by
  refine ⟨m1 ++ sPart ++ m2 ++ w ++ m3, g, by simp, hg, hgG, ?_⟩
  have hl : lowerList (m1 ++ sPart ++ m2 ++ w ++ m3) =
      "http".data ++ lowerList sPart ++ "://".data ++ lowerList w ++
        "github.com/".data := by
    simp only [lowerList_append]
    rw [h1, h2, h3]
  rcases hsp with rfl | hs
  · rcases hw with rfl | hww
    · left
      rw [hl]
      simp [lowerList]
    · right; right; left
      rw [hl, hww]
      simp [lowerList]
  · rcases hw with rfl | hww
    · right; left
      rw [hl, hs]
      simp [lowerList]
    · right; right; right
      rw [hl, hs, hww]
      simp [lowerList]

theorem githubMatchAt_no_s {cs m1 : List Char} {c : Char} {rest1 : List Char}
    (hci : ciStrip "http".data cs = some (m1, c :: rest1))
    (hc : ¬ c.toLower = 's') :
    githubMatchAt cs = ghAfterHttp m1 (c :: rest1) := by
  unfold githubMatchAt
  rw [hci]
  show (if c.toLower = 's' then
      match ghAfterHttp (m1 ++ [c]) rest1 with
      | some x => some x
      | none => ghAfterHttp m1 (c :: rest1)
    else ghAfterHttp m1 (c :: rest1)) = ghAfterHttp m1 (c :: rest1)
  rw [if_neg hc]

theorem githubMatchAt_with_s {cs m1 : List Char} {c : Char} {rest1 : List Char}
    (hci : ciStrip "http".data cs = some (m1, c :: rest1))
    (hc : c.toLower = 's') :
    githubMatchAt cs =
      match ghAfterHttp (m1 ++ [c]) rest1 with
      | some x => some x
      | none => ghAfterHttp m1 (c :: rest1) := by
  unfold githubMatchAt
  rw [hci]
  show (if c.toLower = 's' then
      match ghAfterHttp (m1 ++ [c]) rest1 with
      | some x => some x
      | none => ghAfterHttp m1 (c :: rest1)
    else ghAfterHttp m1 (c :: rest1)) = _
  rw [if_pos hc]

theorem githubMatchAt_sound {cs m rest : List Char}
    (h : githubMatchAt cs = some (m, rest)) :
    cs = m ++ rest ∧ GithubShaped m := by
  unfold githubMatchAt at h
  cases hci : ciStrip "http".data cs with
  | none => rw [hci] at h; simp at h
  | some x =>
    obtain ⟨m1, r1⟩ := x
    rw [hci] at h
    obtain ⟨hcs1, hlow1'⟩ := ciStrip_sound _ _ _ _ hci
    have hlow1 : lowerList m1 = "http".data := by rw [hlow1']; decide
    cases hr1 : r1 with
    | nil =>
      rw [hr1] at h
      replace h : ghAfterHttp m1 [] = some (m, rest) := h
      exfalso
      obtain ⟨m2, w, m3, g, hsplit, _, hlow2, _, _, _, _⟩ := ghAfterHttp_sound h
      have hm2 : m2 = [] := by
        have h0 := hsplit.symm
        simp only [List.append_eq_nil] at h0
        exact h0.1.1.1.1
      rw [hm2] at hlow2
      simp [lowerList] at hlow2
    | cons c rest1 =>
      rw [hr1] at h
      replace h : (if c.toLower = 's' then
          match ghAfterHttp (m1 ++ [c]) rest1 with
          | some x => some x
          | none => ghAfterHttp m1 (c :: rest1)
        else ghAfterHttp m1 (c :: rest1)) = some (m, rest) := h
      rw [hr1] at hcs1
      by_cases hs : c.toLower = 's'
      · rw [if_pos hs] at h
        cases hinner : ghAfterHttp (m1 ++ [c]) rest1 with
        | some y =>
          rw [hinner] at h
          obtain ⟨ym, yr⟩ := y
          simp only [Option.some.injEq, Prod.mk.injEq] at h
          obtain ⟨h1e, h2e⟩ := h
          subst h1e
          subst h2e
          obtain ⟨m2, w, m3, g, hsplit, hm, hlow2, hw, hlow3, hg, hgG⟩ :=
            ghAfterHttp_sound hinner
          constructor
          · rw [hcs1, hsplit, hm]
            simp
          · rw [hm]
            have hb := githubShaped_build m1 [c] m2 w m3 g hlow1
              (Or.inr (by simp [lowerList, hs])) hlow2 hw hlow3 hg hgG
            simpa using hb
        | none =>
          rw [hinner] at h
          exfalso
          obtain ⟨m2, w, m3, g, hsplit, hm, hlow2, hw, hlow3, hg, hgG⟩ :=
            ghAfterHttp_sound h
          cases m2 with
          | nil => simp [lowerList] at hlow2
          | cons c2 m2' =>
            simp only [lowerList, List.map_cons] at hlow2
            have hc2 : c2.toLower = ':' := by
              have := congrArg (fun l => l.headD ' ') hlow2
              simpa using this
            have hcc : c = c2 := by
              simp only [List.cons_append, List.append_assoc] at hsplit
              have := congrArg (fun l => l.headD ' ') hsplit
              simpa using this
            rw [hcc, hc2] at hs
            simp at hs
      · rw [if_neg hs] at h
        obtain ⟨m2, w, m3, g, hsplit, hm, hlow2, hw, hlow3, hg, hgG⟩ :=
          ghAfterHttp_sound h
        constructor
        · rw [hcs1, hsplit, hm]
          simp
        · rw [hm]
          have hb := githubShaped_build m1 [] m2 w m3 g hlow1 (Or.inl rfl)
            hlow2 hw hlow3 hg hgG
          simpa using hb

theorem ghCore_ne_none (consumed p3 g rest0 : List Char)
    (h3 : lowerList p3 = "github.com/".data) (hg : g ≠ [])
    (hgG : ∀ x ∈ g, isGChar x = true) :
    ghCore consumed (p3 ++ (g ++ rest0)) ≠ none := by
  unfold ghCore
  rw [ciStrip_complete _ _ _ (by rw [h3]; decide)]
  show (if ((g ++ rest0).takeWhile isGChar).length = 0 then none
      else some (consumed ++ p3 ++ (g ++ rest0).takeWhile isGChar,
        (g ++ rest0).dropWhile isGChar)) ≠ none
  have hle := takeWhile_length_le_append (p := isGChar) g rest0 hgG
  have hpos : 0 < g.length := List.length_pos.mpr hg
  rw [if_neg (by omega)]
  simp

theorem ghTail_ne_none (consumed w p3 g rest0 : List Char)
    (hw : w = [] ∨ lowerList w = "www.".data)
    (h3 : lowerList p3 = "github.com/".data) (hg : g ≠ [])
    (hgG : ∀ x ∈ g, isGChar x = true) :
    ghTail consumed (w ++ (p3 ++ (g ++ rest0))) ≠ none := by
  rcases hw with rfl | hww
  · simp only [List.nil_append]
    unfold ghTail
    cases hci : ciStrip "www.".data (p3 ++ (g ++ rest0)) with
    | none =>
      exact ghCore_ne_none consumed p3 g rest0 h3 hg hgG
    | some x =>
      obtain ⟨mw, r4⟩ := x
      show (match ghCore (consumed ++ mw) r4 with
        | some x => some x
        | none => ghCore consumed (p3 ++ (g ++ rest0))) ≠ none
      cases hcore : ghCore (consumed ++ mw) r4 with
      | some y => simp
      | none => exact ghCore_ne_none consumed p3 g rest0 h3 hg hgG
  · unfold ghTail
    rw [ciStrip_complete _ _ _ (by rw [hww]; decide)]
    show (match ghCore (consumed ++ w) (p3 ++ (g ++ rest0)) with
      | some x => some x
      | none => ghCore consumed (w ++ (p3 ++ (g ++ rest0)))) ≠ none
    cases hcore : ghCore (consumed ++ w) (p3 ++ (g ++ rest0)) with
    | some y => simp
    | none =>
      exact absurd hcore (ghCore_ne_none (consumed ++ w) p3 g rest0 h3 hg hgG)

theorem ghAfterHttp_ne_none (consumed p2 w p3 g rest0 : List Char)
    (h2 : lowerList p2 = "://".data)
    (hw : w = [] ∨ lowerList w = "www.".data)
    (h3 : lowerList p3 = "github.com/".data) (hg : g ≠ [])
    (hgG : ∀ x ∈ g, isGChar x = true) :
    ghAfterHttp consumed (p2 ++ (w ++ (p3 ++ (g ++ rest0)))) ≠ none := by
  unfold ghAfterHttp
  rw [ciStrip_complete _ _ _ (by rw [h2]; decide)]
  exact ghTail_ne_none (consumed ++ p2) w p3 g rest0 hw h3 hg hgG

theorem githubMatchAt_ne_none {s rest0 : List Char} (hs : GithubShaped s) :
    githubMatchAt (s ++ rest0) ≠ none := by
  obtain ⟨pre, g, rfl, hg, hgG, hcombo⟩ := hs
  simp only [lowerList] at hcombo
  rcases hcombo with h | h | h | h
  · -- http://github.com/
    obtain ⟨p1, r1, rfl, hp1, hr1⟩ := map_eq_append_decomp Char.toLower
      "http".data pre ("://".data ++ "github.com/".data) (by rw [h]; decide)
    obtain ⟨p2, p3, rfl, hp2, hp3⟩ := map_eq_append_decomp Char.toLower
      "://".data r1 "github.com/".data hr1
    cases p2 with
    | nil => simp at hp2
    | cons c2 p2' =>
      simp only [List.map_cons] at hp2
      injection hp2 with hc2 hp2t
      have hcs : ((p1 ++ (c2 :: p2' ++ p3)) ++ g) ++ rest0 =
          p1 ++ (c2 :: (p2' ++ (p3 ++ (g ++ rest0)))) := by simp
      rw [hcs]
      have hci : ciStrip "http".data
          (p1 ++ (c2 :: (p2' ++ (p3 ++ (g ++ rest0))))) =
          some (p1, c2 :: (p2' ++ (p3 ++ (g ++ rest0)))) :=
        ciStrip_complete _ _ _ (by simp only [lowerList]; rw [hp1]; decide)
      rw [githubMatchAt_no_s hci (by rw [hc2]; decide)]
      have hne := ghAfterHttp_ne_none p1 (c2 :: p2') [] p3 g rest0
        (by simp only [lowerList, List.map_cons]; rw [hc2, hp2t])
        (Or.inl rfl) hp3 hg hgG
      simp only [List.nil_append] at hne
      exact hne
  · -- https://github.com/
    obtain ⟨p1, r1, rfl, hp1, hr1⟩ := map_eq_append_decomp Char.toLower
      "http".data pre (['s'] ++ ("://".data ++ "github.com/".data))
      (by rw [h]; decide)
    obtain ⟨ps, r2, rfl, hps, hr2⟩ := map_eq_append_decomp Char.toLower
      ['s'] r1 ("://".data ++ "github.com/".data) hr1
    obtain ⟨p2, p3, rfl, hp2, hp3⟩ := map_eq_append_decomp Char.toLower
      "://".data r2 "github.com/".data hr2
    cases ps with
    | nil => simp at hps
    | cons cS ps' =>
      simp only [List.map_cons] at hps
      injection hps with hcS hps'
      have hps0 : ps' = [] := List.map_eq_nil_iff.mp hps'
      subst hps0
      have hcs : ((p1 ++ (cS :: [] ++ (p2 ++ p3))) ++ g) ++ rest0 =
          p1 ++ (cS :: (p2 ++ (p3 ++ (g ++ rest0)))) := by simp
      rw [hcs]
      have hci : ciStrip "http".data
          (p1 ++ (cS :: (p2 ++ (p3 ++ (g ++ rest0))))) =
          some (p1, cS :: (p2 ++ (p3 ++ (g ++ rest0)))) :=
        ciStrip_complete _ _ _ (by simp only [lowerList]; rw [hp1]; decide)
      rw [githubMatchAt_with_s hci hcS]
      cases hinner : ghAfterHttp (p1 ++ [cS]) (p2 ++ (p3 ++ (g ++ rest0))) with
      | some y => simp
      | none =>
        exfalso
        have hne := ghAfterHttp_ne_none (p1 ++ [cS]) p2 [] p3 g rest0 hp2
          (Or.inl rfl) hp3 hg hgG
        simp only [List.nil_append] at hne
        exact hne hinner
  · -- http://www.github.com/
    obtain ⟨p1, r1, rfl, hp1, hr1⟩ := map_eq_append_decomp Char.toLower
      "http".data pre ("://".data ++ ("www.".data ++ "github.com/".data))
      (by rw [h]; decide)
    obtain ⟨p2, r2, rfl, hp2, hr2⟩ := map_eq_append_decomp Char.toLower
      "://".data r1 ("www.".data ++ "github.com/".data) hr1
    obtain ⟨pw, p3, rfl, hpw, hp3⟩ := map_eq_append_decomp Char.toLower
      "www.".data r2 "github.com/".data hr2
    cases p2 with
    | nil => simp at hp2
    | cons c2 p2' =>
      simp only [List.map_cons] at hp2
      injection hp2 with hc2 hp2t
      have hcs : ((p1 ++ (c2 :: p2' ++ (pw ++ p3))) ++ g) ++ rest0 =
          p1 ++ (c2 :: (p2' ++ (pw ++ (p3 ++ (g ++ rest0))))) := by simp
      rw [hcs]
      have hci : ciStrip "http".data
          (p1 ++ (c2 :: (p2' ++ (pw ++ (p3 ++ (g ++ rest0)))))) =
          some (p1, c2 :: (p2' ++ (pw ++ (p3 ++ (g ++ rest0))))) :=
        ciStrip_complete _ _ _ (by simp only [lowerList]; rw [hp1]; decide)
      rw [githubMatchAt_no_s hci (by rw [hc2]; decide)]
      have hne := ghAfterHttp_ne_none p1 (c2 :: p2') pw p3 g rest0
        (by simp only [lowerList, List.map_cons]; rw [hc2, hp2t])
        (Or.inr hpw) hp3 hg hgG
      exact hne
  · -- https://www.github.com/
    obtain ⟨p1, r1, rfl, hp1, hr1⟩ := map_eq_append_decomp Char.toLower
      "http".data pre (['s'] ++ ("://".data ++ ("www.".data ++ "github.com/".data)))
      (by rw [h]; decide)
    obtain ⟨ps, r2, rfl, hps, hr2⟩ := map_eq_append_decomp Char.toLower
      ['s'] r1 ("://".data ++ ("www.".data ++ "github.com/".data)) hr1
    obtain ⟨p2, r3, rfl, hp2, hr3⟩ := map_eq_append_decomp Char.toLower
      "://".data r2 ("www.".data ++ "github.com/".data) hr2
    obtain ⟨pw, p3, rfl, hpw, hp3⟩ := map_eq_append_decomp Char.toLower
      "www.".data r3 "github.com/".data hr3
    cases ps with
    | nil => simp at hps
    | cons cS ps' =>
      simp only [List.map_cons] at hps
      injection hps with hcS hps'
      have hps0 : ps' = [] := List.map_eq_nil_iff.mp hps'
      subst hps0
      have hcs : ((p1 ++ (cS :: [] ++ (p2 ++ (pw ++ p3)))) ++ g) ++ rest0 =
          p1 ++ (cS :: (p2 ++ (pw ++ (p3 ++ (g ++ rest0))))) := by simp
      rw [hcs]
      have hci : ciStrip "http".data
          (p1 ++ (cS :: (p2 ++ (pw ++ (p3 ++ (g ++ rest0)))))) =
          some (p1, cS :: (p2 ++ (pw ++ (p3 ++ (g ++ rest0))))) :=
        ciStrip_complete _ _ _ (by simp only [lowerList]; rw [hp1]; decide)
      rw [githubMatchAt_with_s hci hcS]
      cases hinner : ghAfterHttp (p1 ++ [cS])
          (p2 ++ (pw ++ (p3 ++ (g ++ rest0)))) with
      | some y => simp
      | none =>
        exfalso
        exact ghAfterHttp_ne_none (p1 ++ [cS]) p2 pw p3 g rest0 hp2
          (Or.inr hpw) hp3 hg hgG hinner

theorem emailMatchAt_glue :
    ∀ (xs m r : List Char), emailMatchAt xs = some (m, r) → xs = m ++ r :=
  fun _ _ _ h => (emailMatchAt_sound h).1

theorem githubMatchAt_glue :
    ∀ (xs m r : List Char), githubMatchAt xs = some (m, r) → xs = m ++ r :=
  fun _ _ _ h => (githubMatchAt_sound h).1

theorem pyNormalizeEmail_some (t : String) :
    pyNormalizeEmail (some t) =
      if t = "" then none
      else
        match reSearch emailMatchAt t.data with
        | some (_, m, _) => some (String.mk m)
        | none => none := rfl

theorem pyNormalizeGithub_some (t : String) :
    pyNormalizeGithub (some t) =
      if t = "" then none
      else
        match reSearch githubMatchAt t.data with
        | some (_, m, _) => some (String.mk m)
        | none => none := rfl

/-- C10: the email and github normalizers perform substring extraction, not
whole-value validation: a returned value is a pattern-shaped substring of
the input occurring at the leftmost position at which any pattern-shaped
substring starts (so "contact: a@x.com please" yields "a@x.com"), and
`None` comes back exactly when no substring of the input matches the
pattern (in particular for empty or `None` input). -/
theorem normalizers_extract_first_matching_substring :
    (∀ s : String,
      (∀ e : String, pyNormalizeEmail (some s) = some e →
        ∃ p r, s.data = p ++ e.data ++ r ∧ EmailShaped e.data ∧
          ∀ p' m' r', s.data = p' ++ m' ++ r' → EmailShaped m' →
            p.length ≤ p'.length) ∧
      (pyNormalizeEmail (some s) = none ↔
        ¬ ∃ p m r, s.data = p ++ m ++ r ∧ EmailShaped m)) ∧
    (∀ s : String,
      (∀ e : String, pyNormalizeGithub (some s) = some e →
        ∃ p r, s.data = p ++ e.data ++ r ∧ GithubShaped e.data ∧
          ∀ p' m' r', s.data = p' ++ m' ++ r' → GithubShaped m' →
            p.length ≤ p'.length) ∧
      (pyNormalizeGithub (some s) = none ↔
        ¬ ∃ p m r, s.data = p ++ m ++ r ∧ GithubShaped m)) ∧
    pyNormalizeEmail (some "contact: a@x.com please") = some "a@x.com" ∧
    pyNormalizeGithub (some "see https://github.com/jo !") =
      some "https://github.com/jo" ∧
    pyNormalizeEmail none = none ∧ pyNormalizeEmail (some "") = none ∧
    pyNormalizeGithub none = none ∧ pyNormalizeGithub (some "") = none := by
  refine ⟨?_, ?_, by decide, by decide, rfl, by decide, rfl, by decide⟩
  · intro s
    constructor
    · intro e he
      rw [pyNormalizeEmail_some] at he
      by_cases hse : s = ""
      · rw [if_pos hse] at he; simp at he
      · rw [if_neg hse] at he
        cases hsr : reSearch emailMatchAt s.data with
        | none => rw [hsr] at he; simp at he
        | some x =>
          obtain ⟨p, m, r⟩ := x
          rw [hsr] at he
          simp only [Option.some.injEq] at he
          obtain ⟨hsplit, hfm⟩ := reSearch_eq_some emailMatchAt_glue hsr
          have hshape := (emailMatchAt_sound hfm).2
          subst he
          refine ⟨p, r, hsplit, hshape, ?_⟩
          intro p' m' r' hsplit' hshape'
          by_contra hlt
          push_neg at hlt
          have hnone := reSearch_leftmost hsr p' (m' ++ r')
            (by rw [hsplit']; simp) hlt
          exact emailMatchAt_ne_none hshape' hnone
    · constructor
      · intro hnone hex
        obtain ⟨p, m, r, hsplit, hshape⟩ := hex
        rw [pyNormalizeEmail_some] at hnone
        by_cases hse : s = ""
        · subst hse
          have h0 : (p ++ m) ++ r = ([] : List Char) := hsplit.symm
          obtain ⟨h1, _⟩ := List.append_eq_nil.mp h0
          obtain ⟨_, hm⟩ := List.append_eq_nil.mp h1
          obtain ⟨a, b, c, hd, _, _⟩ := hshape
          rw [hm] at hd
          simp at hd
        · rw [if_neg hse] at hnone
          cases hsr : reSearch emailMatchAt s.data with
          | some x =>
            obtain ⟨p0, m0, r0⟩ := x
            rw [hsr] at hnone
            simp at hnone
          | none =>
            have hfnone := reSearch_eq_none hsr p (m ++ r)
              (by rw [hsplit]; simp)
            exact emailMatchAt_ne_none hshape hfnone
      · intro hno
        rw [pyNormalizeEmail_some]
        by_cases hse : s = ""
        · rw [if_pos hse]
        · rw [if_neg hse]
          cases hsr : reSearch emailMatchAt s.data with
          | none => rfl
          | some x =>
            obtain ⟨p, m, r⟩ := x
            exfalso
            obtain ⟨hsplit, hfm⟩ := reSearch_eq_some emailMatchAt_glue hsr
            exact hno ⟨p, m, r, hsplit, (emailMatchAt_sound hfm).2⟩
  · intro s
    constructor
    · intro e he
      rw [pyNormalizeGithub_some] at he
      by_cases hse : s = ""
      · rw [if_pos hse] at he; simp at he
      · rw [if_neg hse] at he
        cases hsr : reSearch githubMatchAt s.data with
        | none => rw [hsr] at he; simp at he
        | some x =>
          obtain ⟨p, m, r⟩ := x
          rw [hsr] at he
          simp only [Option.some.injEq] at he
          obtain ⟨hsplit, hfm⟩ := reSearch_eq_some githubMatchAt_glue hsr
          have hshape := (githubMatchAt_sound hfm).2
          subst he
          refine ⟨p, r, hsplit, hshape, ?_⟩
          intro p' m' r' hsplit' hshape'
          by_contra hlt
          push_neg at hlt
          have hnone := reSearch_leftmost hsr p' (m' ++ r')
            (by rw [hsplit']; simp) hlt
          exact githubMatchAt_ne_none hshape' hnone
    · constructor
      · intro hnone hex
        obtain ⟨p, m, r, hsplit, hshape⟩ := hex
        rw [pyNormalizeGithub_some] at hnone
        by_cases hse : s = ""
        · subst hse
          have h0 : (p ++ m) ++ r = ([] : List Char) := hsplit.symm
          obtain ⟨h1, _⟩ := List.append_eq_nil.mp h0
          obtain ⟨_, hm⟩ := List.append_eq_nil.mp h1
          obtain ⟨pre, g, hd, hgne, _, _⟩ := hshape
          rw [hm] at hd
          obtain ⟨hpre, hgnil⟩ := List.append_eq_nil.mp hd.symm
          exact hgne hgnil
        · rw [if_neg hse] at hnone
          cases hsr : reSearch githubMatchAt s.data with
          | some x =>
            obtain ⟨p0, m0, r0⟩ := x
            rw [hsr] at hnone
            simp at hnone
          | none =>
            have hfnone := reSearch_eq_none hsr p (m ++ r)
              (by rw [hsplit]; simp)
            exact githubMatchAt_ne_none hshape hfnone
      · intro hno
        rw [pyNormalizeGithub_some]
        by_cases hse : s = ""
        · rw [if_pos hse]
        · rw [if_neg hse]
          cases hsr : reSearch githubMatchAt s.data with
          | none => rfl
          | some x =>
            obtain ⟨p, m, r⟩ := x
            exfalso
            obtain ⟨hsplit, hfm⟩ := reSearch_eq_some githubMatchAt_glue hsr
            exact hno ⟨p, m, r, hsplit, (githubMatchAt_sound hfm).2⟩

/-- C10 witness: the normalizers applied to concrete inputs in which the
match is a proper substring. -/
theorem normalizers_extract_first_matching_substring_witness :
    (∃ p r, ("contact: a@x.com please" : String).data =
        p ++ ("a@x.com" : String).data ++ r ∧
      EmailShaped ("a@x.com" : String).data ∧
      ∀ p' m' r', ("contact: a@x.com please" : String).data = p' ++ m' ++ r' →
        EmailShaped m' → p.length ≤ p'.length) ∧
    (∃ p r, ("see https://github.com/jo !" : String).data =
        p ++ ("https://github.com/jo" : String).data ++ r ∧
      GithubShaped ("https://github.com/jo" : String).data ∧
      ∀ p' m' r', ("see https://github.com/jo !" : String).data =
          p' ++ m' ++ r' →
        GithubShaped m' → p.length ≤ p'.length) :=
  ⟨(normalizers_extract_first_matching_substring.1
      "contact: a@x.com please").1 "a@x.com" (by decide),
   (normalizers_extract_first_matching_substring.2.1
      "see https://github.com/jo !").1 "https://github.com/jo" (by decide)⟩

end Scraper
